import Mathlib

/-!
Verification of the Minesweeper AI (`minesweeper.py`).

The Python module is shallowly embedded: cells are pairs of integers
(Python tuple arithmetic on `(i, j)` can produce negative coordinates,
which the in-bounds filter then discards), Python `set` objects become
`Finset`, Python `int` becomes `ℤ`, and the mutable `Sentence` objects
shared between `self.knowledge` and `additional_knowledge` are modelled
by an arena (`List Sentence`) addressed by allocation index, so that
aliasing between the two lists is represented faithfully.
-/

abbrev Cell := ℤ × ℤ

/-- Embedding of the Python class `Sentence` (a set of board cells and a
count of how many of those cells are mines).  Python `__eq__` compares
both fields, which coincides with structural equality here. -/
structure Sentence where
  cells : Finset Cell
  count : ℤ
  deriving DecidableEq

namespace Sentence

/-- `Sentence.known_mines`: returns `cells` when `len(self.cells) == self.count`,
else the empty set (lines 106-113). -/
def known_mines (s : Sentence) : Finset Cell :=
  if (s.cells.card : ℤ) = s.count then s.cells else ∅

/-- `Sentence.known_safes`: returns `cells` when `self.count == 0`,
else the empty set (lines 117-124). -/
def known_safes (s : Sentence) : Finset Cell :=
  if s.count = 0 then s.cells else ∅

/-- `Sentence.mark_mine`: if `cell in self.cells`, remove it and decrement
`count` (lines 126-133); otherwise a no-op. -/
def mark_mine (s : Sentence) (c : Cell) : Sentence :=
  if c ∈ s.cells then ⟨s.cells.erase c, s.count - 1⟩ else s

/-- `Sentence.mark_safe`: if `cell in self.cells`, remove it, leaving
`count` unchanged (lines 135-141); otherwise a no-op. -/
def mark_safe (s : Sentence) (c : Cell) : Sentence :=
  if c ∈ s.cells then ⟨s.cells.erase c, s.count⟩ else s

end Sentence

/-- Embedding of the mutable state of the Python class `MinesweeperAI`.
`arena` is the allocation arena of all `Sentence` objects ever created;
`knowledge` is the list `self.knowledge`, holding arena indices so that
object identity (shared mutable `Sentence` objects) is preserved. -/
structure AIState where
  height : ℕ
  width : ℕ
  moves_made : Finset Cell
  mines : Finset Cell
  safes : Finset Cell
  arena : List Sentence
  knowledge : List ℕ
  deriving DecidableEq

/-- `MinesweeperAI.__init__` (lines 148-162). -/
def initAI (h w : ℕ) : AIState :=
  ⟨h, w, ∅, ∅, ∅, [], []⟩

/-- Apply `f i t` to the element at each position `i` of the list, where the
numbering starts at `n`.  Used to mutate exactly the arena entries whose
index occurs in `knowledge`. -/
def mapWithIdx (f : ℕ → Sentence → Sentence) : ℕ → List Sentence → List Sentence
  | _, [] => []
  | n, t :: rest => f n t :: mapWithIdx f (n + 1) rest

namespace AIState

/-- `MinesweeperAI.mark_mine` (lines 164-171): add the cell to `self.mines`
and call `Sentence.mark_mine` on every sentence in `self.knowledge`. -/
def mark_mine (s : AIState) (c : Cell) : AIState :=
  { s with mines := insert c s.mines,
           arena := mapWithIdx
             (fun i t => if i ∈ s.knowledge then t.mark_mine c else t) 0 s.arena }

/-- `MinesweeperAI.mark_safe` (lines 173-180): add the cell to `self.safes`
and call `Sentence.mark_safe` on every sentence in `self.knowledge`. -/
def mark_safe (s : AIState) (c : Cell) : AIState :=
  { s with safes := insert c s.safes,
           arena := mapWithIdx
             (fun i t => if i ∈ s.knowledge then t.mark_safe c else t) 0 s.arena }

/-- The loops `for mine in bin: self.mark_mine(mine)` iterate over a Python
set whose iteration order is unspecified; the net effect of marking every
element of `cs` is order-independent (each sentence loses `cells ∩ cs` and
its count drops by the number of lost cells, and `self.mines` gains `cs`),
so the loop is embedded as this simultaneous update. -/
def markMinesAll (s : AIState) (cs : Finset Cell) : AIState :=
  { s with mines := s.mines ∪ cs,
           arena := mapWithIdx
             (fun i t => if i ∈ s.knowledge then
                ⟨t.cells \ cs, t.count - ((t.cells ∩ cs).card : ℤ)⟩ else t) 0 s.arena }

/-- Order-independent embedding of `for safe in bin: self.mark_safe(safe)`
over a Python set `cs` (see `markMinesAll`). -/
def markSafesAll (s : AIState) (cs : Finset Cell) : AIState :=
  { s with safes := s.safes ∪ cs,
           arena := mapWithIdx
             (fun i t => if i ∈ s.knowledge then ⟨t.cells \ cs, t.count⟩ else t) 0 s.arena }

end AIState

/-- The set `L` of line 204: the eight cells around `(i, j)` obtained by
tuple arithmetic (the cell itself is not in `L`). -/
def nbrOffsets (c : Cell) : Finset Cell :=
  {(c.1 + 1, c.2), (c.1 + 1, c.2 + 1), (c.1 + 1, c.2 - 1), (c.1, c.2 - 1),
   (c.1, c.2 + 1), (c.1 - 1, c.2 - 1), (c.1 - 1, c.2), (c.1 - 1, c.2 + 1)}

/-- `all_moves` of lines 200-203: the full `height × width` grid. -/
def gridCells (h w : ℕ) : Finset Cell :=
  (Finset.range h ×ˢ Finset.range w).image (fun p => ((p.1 : ℤ), (p.2 : ℤ)))

/-- The in-bounds neighbourhood built by lines 204-208:
`L` filtered by membership in `all_moves`. -/
def nbhd (h w : ℕ) (c : Cell) : Finset Cell :=
  (nbrOffsets c).filter (· ∈ gridCells h w)

/-- Lines 197-227 of `add_knowledge`: record the move, mark the observed
cell safe, build the in-bounds neighbour set, eliminate already-classified
neighbours (decrementing the count once per known mine eliminated), and
append the resulting new sentence to the knowledge base. -/
def phaseIngest (s : AIState) (cell : Cell) (count : ℤ) : AIState :=
  let s := { s with moves_made := insert cell s.moves_made }
  let s := s.mark_safe cell
  let neighbors := nbhd s.height s.width cell
  let c := count - ((neighbors.filter (· ∈ s.mines)).card : ℤ)
  let eliminated := neighbors.filter
    (fun x => x ∈ s.mines ∨ x ∈ s.safes ∨ x ∈ s.moves_made)
  let ns : Sentence := ⟨neighbors \ eliminated, c⟩
  { s with arena := s.arena ++ [ns], knowledge := s.knowledge ++ [s.arena.length] }

/-- Lines 228-242: extract `known_safes`/`known_mines` from the newly added
sentence (the last element of `self.knowledge`) and mark them.  Both tile
sets are read before any marking; the code marks mines first, then safes.
At most one of the two sets is nonempty (`count == 0` together with
`len(cells) == count` forces `cells` empty), so the Python aliasing of the
returned `self.cells` is immaterial. -/
def phaseNewExtract (s : AIState) : AIState :=
  let ns := s.arena.getD (s.knowledge.getLastD 0) ⟨∅, 0⟩
  let st := ns.known_safes
  let mt := ns.known_mines
  let s := if mt ≠ ∅ then s.markMinesAll mt else s
  if st ≠ ∅ then s.markSafesAll st else s

/-- One pass of the loop of lines 246-262 over the listed sentence ids:
for each sentence (read in its current, possibly already mutated, state)
extract and mark safes first, then mines. -/
def loopExtractAux (s : AIState) : List ℕ → AIState
  | [] => s
  | i :: rest =>
    let t := s.arena.getD i ⟨∅, 0⟩
    let st := t.known_safes
    let mt := t.known_mines
    let s := if st ≠ ∅ then s.markSafesAll st else s
    let s := if mt ≠ ∅ then s.markMinesAll mt else s
    loopExtractAux s rest

/-- Lines 246-262: the extraction loop over `self.knowledge` (the list is
not structurally modified during this loop, so iterating over a snapshot
of the ids is faithful). -/
def phaseLoopExtract (s : AIState) : AIState :=
  loopExtractAux s s.knowledge

/-- CPython `list.remove(x)`: delete the first element whose current value
(under the valuation `v`) equals the value `x`; Python `Sentence.__eq__`
compares cells and count, i.e. full value equality. -/
def removeFirstVal {α : Type} (v : α → Sentence) (x : Sentence) : List α → List α
  | [] => []
  | a :: rest => if v a = x then rest else a :: removeFirstVal v x rest

/-- CPython semantics of `for sentence in lst: if len(sentence.cells)==0:
lst.remove(sentence)` (lines 264-266, 286-288 and 291-293): an internal
cursor `k` advances by one each iteration even when a removal shifts the
remaining elements left, so the element after a removed one is skipped.
The cursor loop runs at most `lst.length` times, which bounds the fuel. -/
def cleanupAux {α : Type} (v : α → Sentence) : ℕ → List α → ℕ → List α
  | 0, lst, _ => lst
  | fuel + 1, lst, k =>
    if h : k < lst.length then
      let x := v (lst.get ⟨k, h⟩)
      if x.cells = ∅ then cleanupAux v fuel (removeFirstVal v x lst) (k + 1)
      else cleanupAux v fuel lst (k + 1)
    else lst

/-- Lines 264-266 and 286-288: remove (with the cursor semantics above)
the sentences with empty cell sets from `self.knowledge`. -/
def phaseCleanup (s : AIState) : AIState :=
  { s with knowledge :=
      cleanupAux (fun i => s.arena.getD i ⟨∅, 0⟩) s.knowledge.length s.knowledge 0 }

/-- An element of the Python list `additional_knowledge`: either an arena
index (the object was appended to `self.knowledge`, so it is shared and
later mutations are visible through the arena) or a frozen value (the
object was judged already present by `__eq__` and never appended). -/
abbrev AddEntry := Option ℕ × Sentence

/-- Current value of an `additional_knowledge` object. -/
def curVal (arena : List Sentence) (e : AddEntry) : Sentence :=
  match e.1 with
  | some i => arena.getD i ⟨∅, 0⟩
  | none => e.2

/-- Lines 270-279: for every ordered pair of listed sentences with
`sentence2 != sentence1` (value inequality) and `cells2 ⊆ cells1`, derive
`Sentence(cells1 - cells2, count1 - count2)`, in nested-loop order. -/
def deriveAll (vals : List Sentence) : List Sentence :=
  (vals.map (fun s1 =>
    (vals.filter (fun s2 => decide (s2 ≠ s1 ∧ s2.cells ⊆ s1.cells))).map
      (fun s2 => ⟨s1.cells \ s2.cells, s1.count - s2.count⟩))).flatten

/-- Lines 281-284, one step: append the derived sentence to
`self.knowledge` unless a sentence with equal value is already there
(membership is tested against the live, partially extended list). -/
def appendNew (acc : AIState × List AddEntry) (v : Sentence) : AIState × List AddEntry :=
  let s := acc.1
  if s.knowledge.any (fun i => decide (s.arena.getD i ⟨∅, 0⟩ = v)) then
    (s, acc.2 ++ [(none, v)])
  else
    ({ s with arena := s.arena ++ [v], knowledge := s.knowledge ++ [s.arena.length] },
     acc.2 ++ [(some s.arena.length, v)])

/-- Lines 268-284: derive all subset-resolution sentences from the current
knowledge values, then append the new ones; returns the updated state and
the `additional_knowledge` list. -/
def phaseResolve (s : AIState) : AIState × List AddEntry :=
  let vals := s.knowledge.map (fun i => s.arena.getD i ⟨∅, 0⟩)
  (deriveAll vals).foldl appendNew (s, [])

/-- Lines 295-309: the extraction loop over `additional_knowledge`,
reading each object's current value; safes are marked first, then mines
(again at most one of the two sets is nonempty per sentence). -/
def addExtractAux (s : AIState) : List AddEntry → AIState
  | [] => s
  | e :: rest =>
    let t := curVal s.arena e
    let st := t.known_safes
    let mt := t.known_mines
    let s := if st ≠ ∅ then s.markSafesAll st else s
    let s := if mt ≠ ∅ then s.markMinesAll mt else s
    addExtractAux s rest

/-- Lines 228-309 of `add_knowledge`: everything after the new sentence
has been appended. -/
def addTail (t : AIState) : AIState :=
  let s2 := phaseNewExtract t
  let s3 := phaseLoopExtract s2
  let s4 := phaseCleanup s3
  let p := phaseResolve s4
  let s6 := phaseCleanup p.1
  let add2 := cleanupAux (curVal s6.arena) p.2.length p.2 0
  addExtractAux s6 add2

/-- `MinesweeperAI.add_knowledge` (lines 182-309). -/
def addKnowledge (s : AIState) (cell : Cell) (count : ℤ) : AIState :=
  addTail (phaseIngest s cell count)

/-- `MinesweeperAI.make_safe_move` (lines 321-336) mutates nothing and
returns some known-safe cell that has not been played (Python picks an
unspecified element of the set `self.safes`); this is its candidate set. -/
def safeMovesAvailable (s : AIState) : Finset Cell :=
  s.safes \ s.moves_made

/-- `possible_move` of `MinesweeperAI.make_random_move` (lines 346-351):
the candidate universe is built from `range(self.height-1)` and
`range(self.width-1)`, minus `moves_made` and `mines`.  `random.randint`
then picks uniformly from this set (line 352-357), so this set is exactly
the support of `make_random_move`; the function mutates nothing. -/
def possible_move (s : AIState) : Finset Cell :=
  let all_moves := (Finset.range (s.height - 1) ×ˢ Finset.range (s.width - 1)).image
    (fun p => ((p.1 : ℤ), (p.2 : ℤ)))
  all_moves \ (s.moves_made ∪ s.mines)

/-- Folding a list of observations through `add_knowledge`. -/
def applyCalls (s : AIState) (calls : List (Cell × ℤ)) : AIState :=
  calls.foldl (fun t p => addKnowledge t p.1 p.2) s

/-- State of a fresh 2×2 AI after `add_knowledge((0,0), 3)`: all three
neighbours of `(0,0)` get marked as mines. -/
def c5Mid : AIState :=
  ⟨2, 2, {(0, 0)}, {(1, 0), (1, 1), (0, 1)}, {(0, 0)}, [⟨∅, 0⟩], []⟩

/-- State after additionally ingesting the contradictory observation
`add_knowledge((1,1), 0)`: `(1,1)` is now both a known mine and marked
safe. -/
def c5Final : AIState :=
  ⟨2, 2, {(1, 1), (0, 0)}, {(1, 0), (1, 1), (0, 1)}, {(1, 1), (0, 0)},
   [⟨∅, 0⟩, ⟨∅, -2⟩], []⟩

/-- Fresh 2×3 AI after `add_knowledge((0,0), 1)`. -/
def c2Mid1 : AIState :=
  ⟨2, 3, {(0, 0)}, ∅, {(0, 0)}, [⟨{(1, 0), (1, 1), (0, 1)}, 1⟩], [0]⟩

/-- ... after `add_knowledge((0,2), 1)` as well. -/
def c2Mid2 : AIState :=
  ⟨2, 3, {(0, 2), (0, 0)}, ∅, {(0, 2), (0, 0)},
   [⟨{(1, 0), (1, 1), (0, 1)}, 1⟩, ⟨{(1, 2), (1, 1), (0, 1)}, 1⟩], [0, 1]⟩

/-- ... after `add_knowledge((1,2), 1)` as well: the subset resolution of
this third call derives `{(1,0)} = 0`, whose extraction empties that very
sentence after the last cleanup pass has already run, so the sentence
`⟨∅, 0⟩` (arena index 3) stays in the knowledge pool. -/
def c2Final : AIState :=
  ⟨2, 3, {(1, 2), (0, 2), (0, 0)}, ∅, {(1, 2), (0, 2), (0, 0), (1, 0)},
   [⟨{(1, 1), (0, 1)}, 1⟩, ⟨{(1, 1), (0, 1)}, 1⟩, ⟨{(1, 1), (0, 1)}, 1⟩, ⟨∅, 0⟩],
   [0, 1, 2, 3]⟩

/-- Fresh 2×2 AI after the contradictory `add_knowledge((0,0), 5)`: the
retained sentence claims 5 mines among 3 cells. -/
def c3Run5 : AIState :=
  ⟨2, 2, {(0, 0)}, ∅, {(0, 0)}, [⟨{(1, 0), (1, 1), (0, 1)}, 5⟩], [0]⟩

/-- Fresh 2×2 AI after the contradictory `add_knowledge((0,0), 7)`. -/
def c3Run7 : AIState :=
  ⟨2, 2, {(0, 0)}, ∅, {(0, 0)}, [⟨{(1, 0), (1, 1), (0, 1)}, 7⟩], [0]⟩

/-- Knowledge-base shape for the subset-resolution scenario: the pool
holds exactly `A = {x,y,z} : 2` and `B = {x,y} : 1` and no known mines. -/
def c4State (x y z : Cell) (H W : ℕ) (MM SF : Finset Cell) : AIState :=
  ⟨H, W, MM, ∅, SF, [⟨{x, y, z}, 2⟩, ⟨{x, y}, 1⟩], [0, 1]⟩

/-- The same state after the resolution step has appended the derived
sentence `{z} : 1`. -/
def c4StateR (x y z : Cell) (H W : ℕ) (MM SF : Finset Cell) : AIState :=
  ⟨H, W, MM, ∅, SF, [⟨{x, y, z}, 2⟩, ⟨{x, y}, 1⟩, ⟨{z}, 1⟩], [0, 1, 2]⟩

/-- Spec-side description of the neighbour set (for comparison with the
code's `nbhd`): the in-bounds cells within Chebyshev distance 1 of
`cell`, excluding `cell` itself. -/
def chebNbhdSpec (h w : ℕ) (cell : Cell) : Finset Cell :=
  (gridCells h w).filter
    (fun c => c ≠ cell ∧ (c.1 - cell.1).natAbs ≤ 1 ∧ (c.2 - cell.2).natAbs ≤ 1)

/-- `safes` and `mines` of the second state extend those of the first. -/
def Grows (s t : AIState) : Prop :=
  s.safes ⊆ t.safes ∧ s.mines ⊆ t.mines

/-- A sentence is true of a board whose mine set is `M`: exactly `count`
of its cells are mines. -/
def sentTruth (M : Finset Cell) (t : Sentence) : Prop :=
  ((t.cells ∩ M).card : ℤ) = t.count

/-- Soundness invariant of the AI state with respect to a board with mine
set `M`: no known-safe cell is a mine, every known mine is a mine, every
played cell has been marked safe, and every sentence ever allocated is
true of the board. -/
def InvFull (M : Finset Cell) (h w : ℕ) (s : AIState) : Prop :=
  s.height = h ∧ s.width = w ∧ (∀ c ∈ s.safes, c ∉ M) ∧ s.mines ⊆ M ∧
    s.moves_made ⊆ s.safes ∧ ∀ t ∈ s.arena, sentTruth M t

/-- An observation agrees with the board `M`: the observed cell is not a
mine and the reported count is the number of in-bounds neighbours that
are mines. -/
abbrev consistentCall (M : Finset Cell) (h w : ℕ) (p : Cell × ℤ) : Prop :=
  p.1 ∉ M ∧ p.2 = (((nbhd h w p.1) ∩ M).card : ℤ)

/-!  ## Theorems -/

theorem sentTruth_default (M : Finset Cell) : sentTruth M ⟨∅, 0⟩ := by
  simp [sentTruth]

theorem sentTruth_getD (M : Finset Cell) (l : List Sentence)
    (h : ∀ t ∈ l, sentTruth M t) (i : ℕ) : sentTruth M (l.getD i ⟨∅, 0⟩) := by
  induction l generalizing i with
  | nil => simpa [List.getD] using sentTruth_default M
  | cons a rest ih =>
    cases i with
    | zero => exact h a (by simp)
    | succ j =>
      simp only [List.getD_cons_succ]
      exact ih (fun t ht => h t (by simp [ht])) j

theorem forall_mapWithIdx (P : Sentence → Prop) (f : ℕ → Sentence → Sentence)
    (hf : ∀ i t, P t → P (f i t)) :
    ∀ (n : ℕ) (l : List Sentence), (∀ t ∈ l, P t) →
      ∀ t ∈ mapWithIdx f n l, P t := by
  intro n l
  induction l generalizing n with
  | nil => intro _ t ht; simp [mapWithIdx] at ht
  | cons a rest ih =>
    intro hl t ht
    simp only [mapWithIdx, List.mem_cons] at ht
    rcases ht with rfl | ht
    · exact hf n a (hl a (by simp))
    · exact ih (n + 1) (fun u hu => hl u (by simp [hu])) t ht

theorem sentTruth_removeAll_safe (M : Finset Cell) (cs : Finset Cell)
    (hcs : ∀ c ∈ cs, c ∉ M) (t : Sentence) (ht : sentTruth M t) :
    sentTruth M ⟨t.cells \ cs, t.count⟩ := by
  have hset : (t.cells \ cs) ∩ M = t.cells ∩ M := by
    ext a
    simp only [Finset.mem_inter, Finset.mem_sdiff]
    constructor
    · rintro ⟨⟨h1, _⟩, h2⟩; exact ⟨h1, h2⟩
    · rintro ⟨h1, h2⟩; exact ⟨⟨h1, fun hc => hcs a hc h2⟩, h2⟩
  simpa [sentTruth, hset] using ht

theorem sentTruth_removeAll_mine (M : Finset Cell) (cs : Finset Cell)
    (hcs : cs ⊆ M) (t : Sentence) (ht : sentTruth M t) :
    sentTruth M ⟨t.cells \ cs, t.count - ((t.cells ∩ cs).card : ℤ)⟩ := by
  have hset : (t.cells \ cs) ∩ M = (t.cells ∩ M) \ (t.cells ∩ cs) := by
    ext a
    simp only [Finset.mem_inter, Finset.mem_sdiff, not_and]
    constructor
    · rintro ⟨⟨h1, h2⟩, h3⟩; exact ⟨⟨h1, h3⟩, fun _ => h2⟩
    · rintro ⟨⟨h1, h2⟩, h3⟩; exact ⟨⟨h1, fun hc => h3 h1 hc⟩, h2⟩
  have hsub : t.cells ∩ cs ⊆ t.cells ∩ M :=
    Finset.inter_subset_inter subset_rfl hcs
  have hcard : ((t.cells \ cs) ∩ M).card =
      (t.cells ∩ M).card - (t.cells ∩ cs).card := by
    rw [hset, Finset.card_sdiff hsub]
  simp only [sentTruth] at ht ⊢
  rw [hcard, Nat.cast_sub (Finset.card_le_card hsub), ht]

theorem sentTruth_mark_safe (M : Finset Cell) (c : Cell) (hc : c ∉ M)
    (t : Sentence) (ht : sentTruth M t) : sentTruth M (t.mark_safe c) := by
  rw [Sentence.mark_safe]
  split
  · have := sentTruth_removeAll_safe M {c} (by simpa using hc) t ht
    simpa [Finset.sdiff_singleton_eq_erase] using this
  · exact ht

theorem known_safes_sound (M : Finset Cell) (t : Sentence) (ht : sentTruth M t) :
    ∀ c ∈ t.known_safes, c ∉ M := by
  intro c hc
  rw [Sentence.known_safes] at hc
  split at hc
  · rename_i h0
    rw [sentTruth, h0, Nat.cast_eq_zero, Finset.card_eq_zero] at ht
    intro hcM
    exact absurd (Finset.mem_inter.2 ⟨hc, hcM⟩) (by simp [ht])
  · simp at hc

theorem known_mines_sound (M : Finset Cell) (t : Sentence) (ht : sentTruth M t) :
    t.known_mines ⊆ M := by
  intro c hc
  rw [Sentence.known_mines] at hc
  split at hc
  · rename_i hcard
    rw [sentTruth, ← hcard, Nat.cast_inj] at ht
    have : t.cells ∩ M = t.cells :=
      Finset.eq_of_subset_of_card_le Finset.inter_subset_left (le_of_eq ht.symm)
    exact (Finset.mem_inter.1 (this ▸ hc)).2
  · simp at hc

theorem Grows.rfl {s : AIState} : Grows s s := ⟨subset_rfl, subset_rfl⟩

theorem Grows.trans {s t u : AIState} (h1 : Grows s t) (h2 : Grows t u) : Grows s u :=
  ⟨h1.1.trans h2.1, h1.2.trans h2.2⟩

theorem grows_mark_safe (s : AIState) (c : Cell) : Grows s (s.mark_safe c) :=
  ⟨Finset.subset_insert c s.safes, subset_rfl⟩

theorem grows_mark_mine (s : AIState) (c : Cell) : Grows s (s.mark_mine c) :=
  ⟨subset_rfl, Finset.subset_insert c s.mines⟩

theorem grows_markSafesAll (s : AIState) (cs : Finset Cell) : Grows s (s.markSafesAll cs) :=
  ⟨Finset.subset_union_left, subset_rfl⟩

theorem grows_markMinesAll (s : AIState) (cs : Finset Cell) : Grows s (s.markMinesAll cs) :=
  ⟨subset_rfl, Finset.subset_union_left⟩

theorem grows_ite (s : AIState) (P : Prop) [Decidable P] (t : AIState)
    (h : Grows s t) : Grows s (if P then t else s) := by
  split
  · exact h
  · exact Grows.rfl

theorem grows_phaseIngest (s : AIState) (cell : Cell) (count : ℤ) :
    Grows s (phaseIngest s cell count) := by
  simp only [phaseIngest]
  exact Grows.trans (s := s) (grows_mark_safe _ cell) Grows.rfl

theorem grows_phaseNewExtract (s : AIState) : Grows s (phaseNewExtract s) := by
  simp only [phaseNewExtract]
  exact Grows.trans (grows_ite _ _ _ (grows_markMinesAll _ _))
    (grows_ite _ _ _ (grows_markSafesAll _ _))

theorem grows_loopExtractAux (s : AIState) (l : List ℕ) : Grows s (loopExtractAux s l) := by
  induction l generalizing s with
  | nil => exact Grows.rfl
  | cons i rest ih =>
    refine Grows.trans ?_ (ih _)
    exact Grows.trans (grows_ite _ _ _ (grows_markSafesAll _ _))
      (grows_ite _ _ _ (grows_markMinesAll _ _))

theorem grows_phaseLoopExtract (s : AIState) : Grows s (phaseLoopExtract s) :=
  grows_loopExtractAux s s.knowledge

theorem grows_phaseCleanup (s : AIState) : Grows s (phaseCleanup s) := Grows.rfl

theorem appendNew_safes_mines (a : AIState × List AddEntry) (v : Sentence) :
    ((appendNew a v).1).safes = a.1.safes ∧ ((appendNew a v).1).mines = a.1.mines := by
  simp only [appendNew]
  split <;> exact ⟨rfl, rfl⟩

theorem grows_appendNew_foldl (l : List Sentence) (a : AIState × List AddEntry) :
    Grows a.1 ((l.foldl appendNew a).1) := by
  induction l generalizing a with
  | nil => exact Grows.rfl
  | cons v rest ih =>
    refine Grows.trans ?_ (ih (appendNew a v))
    have h := appendNew_safes_mines a v
    exact ⟨h.1.symm ▸ subset_rfl, h.2.symm ▸ subset_rfl⟩

theorem grows_phaseResolve (s : AIState) : Grows s ((phaseResolve s).1) := by
  simp only [phaseResolve]
  exact grows_appendNew_foldl _ (s, [])

theorem grows_addExtractAux (s : AIState) (l : List AddEntry) :
    Grows s (addExtractAux s l) := by
  induction l generalizing s with
  | nil => exact Grows.rfl
  | cons e rest ih =>
    refine Grows.trans ?_ (ih _)
    exact Grows.trans (grows_ite _ _ _ (grows_markSafesAll _ _))
      (grows_ite _ _ _ (grows_markMinesAll _ _))

theorem grows_addKnowledge (s : AIState) (cell : Cell) (count : ℤ) :
    Grows s (addKnowledge s cell count) := by
  simp only [addKnowledge, addTail]
  exact (grows_phaseIngest s cell count).trans <|
    (grows_phaseNewExtract _).trans <|
    (grows_phaseLoopExtract _).trans <|
    (grows_phaseCleanup _).trans <|
    (grows_phaseResolve _).trans <|
    (grows_phaseCleanup _).trans <|
    grows_addExtractAux _ _

theorem addKnowledge_eq_tail (s : AIState) (cell : Cell) (count : ℤ) :
    addKnowledge s cell count = addTail (phaseIngest s cell count) := rfl

theorem addTail_unfold (t : AIState) :
    addTail t =
      addExtractAux
        (phaseCleanup (phaseResolve (phaseCleanup (phaseLoopExtract (phaseNewExtract t)))).1)
        (cleanupAux
          (curVal
            (phaseCleanup
              (phaseResolve (phaseCleanup (phaseLoopExtract (phaseNewExtract t)))).1).arena)
          (phaseResolve (phaseCleanup (phaseLoopExtract (phaseNewExtract t)))).2.length
          (phaseResolve (phaseCleanup (phaseLoopExtract (phaseNewExtract t)))).2 0) := rfl

theorem cleanupAux_step_keep {α : Type} (v : α → Sentence) (fuel : ℕ) (lst : List α)
    (k : ℕ) (h : k < lst.length) (hne : ¬ (v (lst.get ⟨k, h⟩)).cells = ∅) :
    cleanupAux v (fuel + 1) lst k = cleanupAux v fuel lst (k + 1) := by
  simp only [cleanupAux, dif_pos h, if_neg hne]

theorem phaseNewExtract_inert (s : AIState)
    (hs : (s.arena.getD (s.knowledge.getLastD 0) ⟨∅, 0⟩).known_safes = ∅)
    (hm : (s.arena.getD (s.knowledge.getLastD 0) ⟨∅, 0⟩).known_mines = ∅) :
    phaseNewExtract s = s := by
  simp only [phaseNewExtract, hs, hm]
  simp

theorem loopExtractAux_step_inert (s : AIState) (i : ℕ) (rest : List ℕ)
    (hs : (s.arena.getD i ⟨∅, 0⟩).known_safes = ∅)
    (hm : (s.arena.getD i ⟨∅, 0⟩).known_mines = ∅) :
    loopExtractAux s (i :: rest) = loopExtractAux s rest := by
  simp only [loopExtractAux, hs, hm]
  simp



/-- C9: across any sequence of `add_knowledge` calls, `safes` and `mines`
only grow (the Python code only ever calls `.add` on them, never removes).
`make_safe_move` and `make_random_move` read but never write the state: in
this embedding they are the pure functions `safeMovesAvailable` and
`possible_move`, which take the state as an argument and return only a
candidate set, so they cannot shrink `safes` or `mines` either. -/
theorem c9_safes_mines_monotone (s : AIState) (calls : List (Cell × ℤ)) :
    s.safes ⊆ (applyCalls s calls).safes ∧ s.mines ⊆ (applyCalls s calls).mines := by
  induction calls generalizing s with
  | nil => exact ⟨subset_rfl, subset_rfl⟩
  | cons p rest ih =>
    simp only [applyCalls, List.foldl_cons]
    have h := grows_addKnowledge s p.1 p.2
    have h2 := ih (addKnowledge s p.1 p.2)
    simp only [applyCalls] at h2
    exact ⟨h.1.trans h2.1, h.2.trans h2.2⟩

theorem mem_nbrOffsets (cell a : Cell) :
    a ∈ nbrOffsets cell ↔
      a ≠ cell ∧ (a.1 - cell.1).natAbs ≤ 1 ∧ (a.2 - cell.2).natAbs ≤ 1 := by
  obtain ⟨x, y⟩ := a
  obtain ⟨i, j⟩ := cell
  simp only [nbrOffsets, Finset.mem_insert, Finset.mem_singleton, Prod.mk.injEq, ne_eq,
    not_and]
  omega

theorem not_mem_nbrOffsets_self (cell : Cell) : cell ∉ nbrOffsets cell := by
  rw [mem_nbrOffsets]
  simp

/-- The in-bounds neighbour set built by lines 200-208 equals its
spec-side description via Chebyshev distance. -/
theorem nbhd_eq_chebNbhdSpec (h w : ℕ) (cell : Cell) :
    nbhd h w cell = chebNbhdSpec h w cell := by
  ext a
  simp only [nbhd, chebNbhdSpec, Finset.mem_filter, mem_nbrOffsets]
  tauto

theorem sentence_mark_mine_idem (t : Sentence) (c : Cell) :
    (t.mark_mine c).mark_mine c = t.mark_mine c := by
  by_cases h : c ∈ t.cells <;> simp [Sentence.mark_mine, h]

theorem sentence_mark_safe_idem (t : Sentence) (c : Cell) :
    (t.mark_safe c).mark_safe c = t.mark_safe c := by
  by_cases h : c ∈ t.cells <;> simp [Sentence.mark_safe, h]

theorem mapWithIdx_idem (f : ℕ → Sentence → Sentence)
    (hf : ∀ i t, f i (f i t) = f i t) :
    ∀ (n : ℕ) (l : List Sentence), mapWithIdx f n (mapWithIdx f n l) = mapWithIdx f n l
  | _, [] => rfl
  | n, t :: rest => by
    simp only [mapWithIdx, hf, mapWithIdx_idem f hf (n + 1) rest]

set_option maxHeartbeats 2000000 in
theorem c5_trace_step1 : addKnowledge (initAI 2 2) (0, 0) 3 = c5Mid := by decide

set_option maxHeartbeats 2000000 in
theorem c5_trace_step2 : addKnowledge c5Mid (1, 1) 0 = c5Final := by decide

set_option maxHeartbeats 2000000 in
theorem c2_trace_step1 : addKnowledge (initAI 2 3) (0, 0) 1 = c2Mid1 := by decide

set_option maxHeartbeats 2000000 in
theorem c2_trace_step2 : addKnowledge c2Mid1 (0, 2) 1 = c2Mid2 := by decide

set_option maxHeartbeats 4000000 in
theorem c2_trace_step3 : addKnowledge c2Mid2 (1, 2) 1 = c2Final := by decide

set_option maxHeartbeats 2000000 in
theorem c3_trace_run5 : addKnowledge (initAI 2 2) (0, 0) 5 = c3Run5 := by decide

set_option maxHeartbeats 2000000 in
theorem c3_trace_run7 : addKnowledge (initAI 2 2) (0, 0) 7 = c3Run7 := by decide

/-- C8: the new Constraint appended by lines 199-227 of `add_knowledge`
has as cell set exactly the in-bounds Chebyshev-distance-1 neighbours of
the observed cell (the cell itself excluded) that are not already in
`moves_made`, `safes` or `mines`, and as count the observed count minus
the number of those neighbours that are known mines.  (The code tests the
exclusions against the sets as updated by lines 197-198, but the observed
cell itself is not its own neighbour, so the pre-call sets give the same
result.) -/
theorem c8_new_constraint_shape (s : AIState) (cell : Cell) (count : ℤ)
    (_hin : cell ∈ gridCells s.height s.width) :
    (phaseIngest s cell count).arena.getLast? =
      some ⟨chebNbhdSpec s.height s.width cell \ (s.moves_made ∪ s.safes ∪ s.mines),
            count - ((chebNbhdSpec s.height s.width cell ∩ s.mines).card : ℤ)⟩ := by
  have key : ∀ a, a ∈ chebNbhdSpec s.height s.width cell → a ≠ cell :=
    fun a ha => (Finset.mem_filter.1 ha).2.1
  have hcells : nbhd s.height s.width cell \ (nbhd s.height s.width cell).filter
      (fun x => x ∈ s.mines ∨ x ∈ insert cell s.safes ∨ x ∈ insert cell s.moves_made) =
      chebNbhdSpec s.height s.width cell \ (s.moves_made ∪ s.safes ∪ s.mines) := by
    ext a
    have h1 := key a
    simp only [nbhd_eq_chebNbhdSpec, Finset.mem_sdiff, Finset.mem_filter, Finset.mem_union,
      Finset.mem_insert]
    tauto
  have hcount : ((nbhd s.height s.width cell).filter (· ∈ s.mines)).card =
      (chebNbhdSpec s.height s.width cell ∩ s.mines).card := by
    rw [nbhd_eq_chebNbhdSpec, Finset.filter_mem_eq_inter]
  simp only [phaseIngest, AIState.mark_safe, List.getLast?_append_cons, List.getLast?_cons,
    List.getLastD, List.getLast?_nil, Option.getD_none]
  rw [hcells, hcount]

/-- Witness for C8: the second observation of the C2 replay, evaluated
concretely. -/
theorem c8_new_constraint_witness :
    ((0 : ℤ), (2 : ℤ)) ∈ gridCells 2 3 ∧
    (phaseIngest c2Mid1 ((0 : ℤ), (2 : ℤ)) 1).arena.getLast? =
      some ⟨chebNbhdSpec 2 3 ((0 : ℤ), (2 : ℤ)) \
              ({((0 : ℤ), (0 : ℤ))} ∪ {((0 : ℤ), (0 : ℤ))} ∪ ∅),
            1 - ((chebNbhdSpec 2 3 ((0 : ℤ), (2 : ℤ)) ∩ ∅).card : ℤ)⟩ :=
  ⟨by decide, c8_new_constraint_shape c2Mid1 ((0 : ℤ), (2 : ℤ)) 1 (by decide)⟩

/-- C1: the claim says `make_random_move` draws from the full
`height × width` grid minus `moves_made` and `mines`, so that on a fresh
2×2 board all four cells, including `(1,1)`, are possible returns.  The
code builds the universe from `range(height-1) × range(width-1)`
(lines 347-348), so on a fresh 2×2 board the candidate set is only
`{(0,0)}` and `(1,1)` can never be returned: the code has exactly the
truncated-range bug the spec calls out. -/
theorem c1_random_move_universe_truncated :
    possible_move (initAI 2 2) = {((0 : ℤ), (0 : ℤ))} ∧
    ((1 : ℤ), (1 : ℤ)) ∉ possible_move (initAI 2 2) := by decide

/-- C2: the claim says the knowledge pool contains no empty-cell-set
Constraint when `add_knowledge` returns.  On a fresh 2×3 AI, after the
observation replay `(0,0)↦1`, `(0,2)↦1`, `(1,2)↦1` (consistent with a
single mine at `(1,1)`), the third call's subset resolution derives
`{(1,0)} = 0`; the extraction performed after the final cleanup pass
empties that sentence in place, and it remains in the pool: the returned
state's knowledge list contains arena index 3 whose sentence is `⟨∅, 0⟩`. -/
theorem c2_empty_constraint_left_in_pool :
    ∃ i ∈ (applyCalls (initAI 2 3) [((0, 0), 1), ((0, 2), 1), ((1, 2), 1)]).knowledge,
      ((applyCalls (initAI 2 3) [((0, 0), 1), ((0, 2), 1), ((1, 2), 1)]).arena.getD
        i ⟨∅, 0⟩).cells = ∅ := by
  have e : applyCalls (initAI 2 3) [((0, 0), 1), ((0, 2), 1), ((1, 2), 1)] = c2Final := by
    simp only [applyCalls, List.foldl_cons, List.foldl_nil]
    rw [c2_trace_step1, c2_trace_step2, c2_trace_step3]
  rw [e]
  decide

/-- C3 counterexample: the claim says a contradictory observation (a
Constraint count exceeding its cell-set size) is surfaced to the caller
as an internal-consistency error.  The code has no failure channel at
all: `add_knowledge((0,0), 7)` on a fresh 2×2 AI returns normally and the
pool retains the sentence `{(1,0),(1,1),(0,1)} = 7`, whose count exceeds
its 3-element cell set, with no error and no clamping. -/
theorem c3_no_error_surfaced_counterexample :
    (addKnowledge (initAI 2 2) (0, 0) 7).knowledge = [0] ∧
    (addKnowledge (initAI 2 2) (0, 0) 7).arena =
      [⟨{(1, 0), (1, 1), (0, 1)}, 7⟩] ∧
    (((addKnowledge (initAI 2 2) (0, 0) 7).arena.getD 0 ⟨∅, 0⟩).cells.card : ℤ) <
      ((addKnowledge (initAI 2 2) (0, 0) 7).arena.getD 0 ⟨∅, 0⟩).count := by
  rw [c3_trace_run7]
  decide

/-- C3 amended: `add_knowledge` surfaces no error on contradictory
observations; it silently tolerates them, returning a normal state in
which a Constraint whose count exceeds its cell-set size is created,
kept in the pool, and not clamped. Shown here for `add_knowledge((0,0), 5)`
on a fresh 2×2 AI. -/
theorem c3_contradiction_silently_tolerated :
    (addKnowledge (initAI 2 2) (0, 0) 5).knowledge = [0] ∧
    (addKnowledge (initAI 2 2) (0, 0) 5).arena =
      [⟨{(1, 0), (1, 1), (0, 1)}, 5⟩] ∧
    (((addKnowledge (initAI 2 2) (0, 0) 5).arena.getD 0 ⟨∅, 0⟩).cells.card : ℤ) <
      ((addKnowledge (initAI 2 2) (0, 0) 5).arena.getD 0 ⟨∅, 0⟩).count := by
  rw [c3_trace_run5]
  decide

/-- C5 counterexample: the claim states `safes ∩ mines = ∅` after any
sequence of `add_knowledge` calls.  After the contradictory replay
`(0,0)↦3` then `(1,1)↦0` on a fresh 2×2 AI, `(1,1)` is in both sets. -/
theorem c5_disjointness_counterexample :
    ¬ ((applyCalls (initAI 2 2) [((0, 0), 3), ((1, 1), 0)]).safes ∩
       (applyCalls (initAI 2 2) [((0, 0), 3), ((1, 1), 0)]).mines = ∅) := by
  have e : applyCalls (initAI 2 2) [((0, 0), 3), ((1, 1), 0)] = c5Final := by
    simp only [applyCalls, List.foldl_cons, List.foldl_nil]
    rw [c5_trace_step1, c5_trace_step2]
  rw [e]
  decide

/-- C6: `known_mines` returns the cell set exactly when `|cells| = count`
and the empty set otherwise; `known_safes` returns the cell set exactly
when `count = 0` and the empty set otherwise (both are pure functions of
the sentence in this embedding, matching the side-effect-free Python
methods); in particular `{A,B} = 0` yields `known_safes = {A,B}` and
`{A,B} = 2` yields `known_mines = {A,B}`. -/
theorem c6_known_tiles_characterisation :
    (∀ t : Sentence,
      ((t.cells.card : ℤ) = t.count → t.known_mines = t.cells) ∧
      ((t.cells.card : ℤ) ≠ t.count → t.known_mines = ∅) ∧
      (t.count = 0 → t.known_safes = t.cells) ∧
      (t.count ≠ 0 → t.known_safes = ∅)) ∧
    (∀ A B : Cell, A ≠ B →
      Sentence.known_safes ⟨{A, B}, 0⟩ = {A, B} ∧
      Sentence.known_mines ⟨{A, B}, 2⟩ = {A, B}) := by
  constructor
  · intro t
    refine ⟨fun h => ?_, fun h => ?_, fun h => ?_, fun h => ?_⟩ <;>
      simp [Sentence.known_mines, Sentence.known_safes, h]
  · intro A B hAB
    refine ⟨by simp [Sentence.known_safes], ?_⟩
    have hcard : ({A, B} : Finset Cell).card = 2 := by
      rw [Finset.card_insert_of_not_mem (by simp [hAB]), Finset.card_singleton]
    simp [Sentence.known_mines, hcard]

/-- Witness for C6 at concrete inputs. -/
theorem c6_known_tiles_witness :
    Sentence.known_safes ⟨{((0 : ℤ), (0 : ℤ)), ((0 : ℤ), (1 : ℤ))}, 0⟩ =
      {((0 : ℤ), (0 : ℤ)), ((0 : ℤ), (1 : ℤ))} ∧
    Sentence.known_mines ⟨{((0 : ℤ), (0 : ℤ)), ((0 : ℤ), (1 : ℤ))}, 2⟩ =
      {((0 : ℤ), (0 : ℤ)), ((0 : ℤ), (1 : ℤ))} ∧
    Sentence.known_mines ⟨{((0 : ℤ), (0 : ℤ))}, 0⟩ = ∅ := by
  refine ⟨(c6_known_tiles_characterisation.2 _ _ (by decide)).1,
          (c6_known_tiles_characterisation.2 _ _ (by decide)).2,
          (c6_known_tiles_characterisation.1 ⟨{((0 : ℤ), (0 : ℤ))}, 0⟩).2.1 (by decide)⟩

/-- C7: `Sentence.mark_mine` removes the cell and decrements the count
when the cell is present and is a no-op otherwise; `Sentence.mark_safe`
removes the cell leaving the count unchanged when present and is a no-op
otherwise. -/
theorem c7_sentence_mark_characterisation (t : Sentence) (c : Cell) :
    (c ∈ t.cells → t.mark_mine c = ⟨t.cells.erase c, t.count - 1⟩ ∧
                   t.mark_safe c = ⟨t.cells.erase c, t.count⟩) ∧
    (c ∉ t.cells → t.mark_mine c = t ∧ t.mark_safe c = t) := by
  refine ⟨fun h => ?_, fun h => ?_⟩ <;>
    exact ⟨by simp [Sentence.mark_mine, h], by simp [Sentence.mark_safe, h]⟩

/-- Witness for C7 at concrete inputs. -/
theorem c7_sentence_mark_witness :
    Sentence.mark_mine ⟨{((0 : ℤ), (0 : ℤ))}, 1⟩ ((0 : ℤ), (0 : ℤ)) =
      ⟨Finset.erase {((0 : ℤ), (0 : ℤ))} ((0 : ℤ), (0 : ℤ)), 0⟩ ∧
    Sentence.mark_safe ⟨{((0 : ℤ), (0 : ℤ))}, 1⟩ ((5 : ℤ), (5 : ℤ)) =
      ⟨{((0 : ℤ), (0 : ℤ))}, 1⟩ :=
  ⟨((c7_sentence_mark_characterisation ⟨{((0 : ℤ), (0 : ℤ))}, 1⟩ _).1 (by decide)).1,
   ((c7_sentence_mark_characterisation ⟨{((0 : ℤ), (0 : ℤ))}, 1⟩ _).2 (by decide)).2⟩

/-- C10: the AI-level `mark_mine` and `mark_safe` are idempotent: a second
application with the same cell finds the cell already absent from every
sentence, so the whole state (mines, safes, and every sentence's cells
and count) is unchanged. -/
theorem c10_mark_idempotent (s : AIState) (c : Cell) :
    (s.mark_mine c).mark_mine c = s.mark_mine c ∧
    (s.mark_safe c).mark_safe c = s.mark_safe c := by
  constructor
  · have harena : mapWithIdx (fun i t => if i ∈ s.knowledge then t.mark_mine c else t) 0
        (mapWithIdx (fun i t => if i ∈ s.knowledge then t.mark_mine c else t) 0 s.arena)
        = mapWithIdx (fun i t => if i ∈ s.knowledge then t.mark_mine c else t) 0 s.arena :=
      mapWithIdx_idem _
        (fun i t => by by_cases h : i ∈ s.knowledge <;> simp [h, sentence_mark_mine_idem])
        0 s.arena
    simp only [AIState.mark_mine, Finset.insert_idem, harena]
  · have harena : mapWithIdx (fun i t => if i ∈ s.knowledge then t.mark_safe c else t) 0
        (mapWithIdx (fun i t => if i ∈ s.knowledge then t.mark_safe c else t) 0 s.arena)
        = mapWithIdx (fun i t => if i ∈ s.knowledge then t.mark_safe c else t) 0 s.arena :=
      mapWithIdx_idem _
        (fun i t => by by_cases h : i ∈ s.knowledge <;> simp [h, sentence_mark_safe_idem])
        0 s.arena
    simp only [AIState.mark_safe, Finset.insert_idem, harena]

theorem markSafesAll_invfull (M : Finset Cell) (h w : ℕ) (s : AIState) (cs : Finset Cell)
    (hcs : ∀ c ∈ cs, c ∉ M) (hs : InvFull M h w s) : InvFull M h w (s.markSafesAll cs) := by
  obtain ⟨hh, hww, hsafe, hmine, hmoves, harena⟩ := hs
  refine ⟨hh, hww, ?_, hmine, hmoves.trans Finset.subset_union_left, ?_⟩
  · intro c hc
    rcases Finset.mem_union.1 hc with hc | hc
    · exact hsafe c hc
    · exact hcs c hc
  · refine forall_mapWithIdx _ _ (fun i t ht => ?_) 0 s.arena harena
    split
    · exact sentTruth_removeAll_safe M cs hcs t ht
    · exact ht

theorem markMinesAll_invfull (M : Finset Cell) (h w : ℕ) (s : AIState) (cs : Finset Cell)
    (hcs : cs ⊆ M) (hs : InvFull M h w s) : InvFull M h w (s.markMinesAll cs) := by
  obtain ⟨hh, hww, hsafe, hmine, hmoves, harena⟩ := hs
  refine ⟨hh, hww, hsafe, Finset.union_subset hmine hcs, hmoves, ?_⟩
  refine forall_mapWithIdx _ _ (fun i t ht => ?_) 0 s.arena harena
  split
  · exact sentTruth_removeAll_mine M cs hcs t ht
  · exact ht

theorem phaseNewExtract_invfull (M : Finset Cell) (h w : ℕ) (s : AIState)
    (hs : InvFull M h w s) : InvFull M h w (phaseNewExtract s) := by
  have ht : sentTruth M (s.arena.getD (s.knowledge.getLastD 0) ⟨∅, 0⟩) :=
    sentTruth_getD M s.arena hs.2.2.2.2.2 _
  have hks := known_safes_sound M _ ht
  have hkm := known_mines_sound M _ ht
  simp only [phaseNewExtract]
  split
  · refine markSafesAll_invfull M h w _ _ hks ?_
    split
    · exact markMinesAll_invfull M h w _ _ hkm hs
    · exact hs
  · split
    · exact markMinesAll_invfull M h w _ _ hkm hs
    · exact hs

theorem loopExtractAux_invfull (M : Finset Cell) (h w : ℕ) :
    ∀ (l : List ℕ) (s : AIState), InvFull M h w s → InvFull M h w (loopExtractAux s l) := by
  intro l
  induction l with
  | nil => intro s hs; exact hs
  | cons i rest ih =>
    intro s hs
    have ht : sentTruth M (s.arena.getD i ⟨∅, 0⟩) :=
      sentTruth_getD M s.arena hs.2.2.2.2.2 i
    have hks := known_safes_sound M _ ht
    have hkm := known_mines_sound M _ ht
    simp only [loopExtractAux]
    refine ih _ ?_
    split
    · refine markMinesAll_invfull M h w _ _ hkm ?_
      split
      · exact markSafesAll_invfull M h w _ _ hks hs
      · exact hs
    · split
      · exact markSafesAll_invfull M h w _ _ hks hs
      · exact hs

theorem phaseLoopExtract_invfull (M : Finset Cell) (h w : ℕ) (s : AIState)
    (hs : InvFull M h w s) : InvFull M h w (phaseLoopExtract s) :=
  loopExtractAux_invfull M h w s.knowledge s hs

theorem phaseCleanup_invfull (M : Finset Cell) (h w : ℕ) (s : AIState)
    (hs : InvFull M h w s) : InvFull M h w (phaseCleanup s) := hs

theorem sentTruth_derived (M : Finset Cell) (A B : Sentence)
    (hA : sentTruth M A) (hB : sentTruth M B) (hsub : B.cells ⊆ A.cells) :
    sentTruth M ⟨A.cells \ B.cells, A.count - B.count⟩ := by
  have hset : (A.cells \ B.cells) ∩ M = (A.cells ∩ M) \ (B.cells ∩ M) := by
    ext a
    simp only [Finset.mem_inter, Finset.mem_sdiff, not_and]
    constructor
    · rintro ⟨⟨h1, h2⟩, h3⟩; exact ⟨⟨h1, h3⟩, fun hc _ => h2 hc⟩
    · rintro ⟨⟨h1, h3⟩, h2⟩; exact ⟨⟨h1, fun hc => h2 hc h3⟩, h3⟩
  have hsub' : B.cells ∩ M ⊆ A.cells ∩ M := Finset.inter_subset_inter hsub subset_rfl
  rw [sentTruth]
  show (((A.cells \ B.cells) ∩ M).card : ℤ) = _
  rw [hset, Finset.card_sdiff hsub', Nat.cast_sub (Finset.card_le_card hsub'), hA, hB]

theorem deriveAll_truth (M : Finset Cell) (vals : List Sentence)
    (hv : ∀ v ∈ vals, sentTruth M v) : ∀ d ∈ deriveAll vals, sentTruth M d := by
  intro d hd
  simp only [deriveAll, List.mem_flatten, List.mem_map] at hd
  obtain ⟨l, ⟨s1, hs1, rfl⟩, hdl⟩ := hd
  simp only [List.mem_map, List.mem_filter] at hdl
  obtain ⟨s2, ⟨hs2, hcond⟩, rfl⟩ := hdl
  have hc := of_decide_eq_true hcond
  exact sentTruth_derived M s1 s2 (hv s1 hs1) (hv s2 hs2) hc.2

theorem foldl_appendNew_invfull (M : Finset Cell) (h w : ℕ) :
    ∀ (l : List Sentence) (a : AIState × List AddEntry),
      InvFull M h w a.1 → (∀ v ∈ l, sentTruth M v) → (∀ e ∈ a.2, sentTruth M e.2) →
      InvFull M h w ((l.foldl appendNew a).1) ∧
        ∀ e ∈ (l.foldl appendNew a).2, sentTruth M e.2 := by
  intro l
  induction l with
  | nil => intro a h1 _ h3; exact ⟨h1, h3⟩
  | cons v rest ih =>
    intro a h1 h2 h3
    simp only [List.foldl_cons]
    refine ih (appendNew a v) ?_ (fun u hu => h2 u (by simp [hu])) ?_
    · simp only [appendNew]
      split
      · exact h1
      · obtain ⟨hh, hww, hsafe, hmine, hmoves, harena⟩ := h1
        refine ⟨hh, hww, hsafe, hmine, hmoves, ?_⟩
        intro t htm
        rcases List.mem_append.1 htm with htm | htm
        · exact harena t htm
        · simp only [List.mem_singleton] at htm
          subst htm
          exact h2 _ (by simp)
    · simp only [appendNew]
      split <;> intro e he <;> rcases List.mem_append.1 he with he | he
      · exact h3 e he
      · simp only [List.mem_singleton] at he
        subst he
        exact h2 _ (by simp)
      · exact h3 e he
      · simp only [List.mem_singleton] at he
        subst he
        exact h2 _ (by simp)

theorem phaseResolve_invfull (M : Finset Cell) (h w : ℕ) (s : AIState)
    (hs : InvFull M h w s) :
    InvFull M h w (phaseResolve s).1 ∧ ∀ e ∈ (phaseResolve s).2, sentTruth M e.2 := by
  simp only [phaseResolve]
  refine foldl_appendNew_invfull M h w _ _ hs ?_ (by simp)
  refine deriveAll_truth M _ ?_
  intro v hv
  simp only [List.mem_map] at hv
  obtain ⟨i, _, rfl⟩ := hv
  exact sentTruth_getD M s.arena hs.2.2.2.2.2 i

theorem removeFirstVal_subset {α : Type} (v : α → Sentence) (x : Sentence) :
    ∀ (l : List α), ∀ a ∈ removeFirstVal v x l, a ∈ l := by
  intro l
  induction l with
  | nil => intro a ha; simp [removeFirstVal] at ha
  | cons b rest ih =>
    intro a ha
    simp only [removeFirstVal] at ha
    split at ha
    · exact List.mem_cons_of_mem b ha
    · rcases List.mem_cons.1 ha with rfl | ha
      · exact List.mem_cons_self a rest
      · exact List.mem_cons_of_mem b (ih a ha)

theorem cleanupAux_subset {α : Type} (v : α → Sentence) :
    ∀ (fuel : ℕ) (lst : List α) (k : ℕ), ∀ a ∈ cleanupAux v fuel lst k, a ∈ lst := by
  intro fuel
  induction fuel with
  | zero => intro lst k a ha; exact ha
  | succ n ih =>
    intro lst k a ha
    simp only [cleanupAux] at ha
    split at ha
    · split at ha
      · exact removeFirstVal_subset v _ lst a (ih _ _ a ha)
      · exact ih _ _ a ha
    · exact ha

theorem addExtractAux_invfull (M : Finset Cell) (h w : ℕ) :
    ∀ (l : List AddEntry) (s : AIState), InvFull M h w s →
      (∀ e ∈ l, sentTruth M e.2) → InvFull M h w (addExtractAux s l) := by
  intro l
  induction l with
  | nil => intro s hs _; exact hs
  | cons e rest ih =>
    intro s hs hl
    have ht : sentTruth M (curVal s.arena e) := by
      obtain ⟨o, val⟩ := e
      cases o with
      | some i => exact sentTruth_getD M s.arena hs.2.2.2.2.2 i
      | none => exact hl (none, val) (by simp)
    have hks := known_safes_sound M _ ht
    have hkm := known_mines_sound M _ ht
    simp only [addExtractAux]
    refine ih _ ?_ (fun u hu => hl u (by simp [hu]))
    split
    · refine markMinesAll_invfull M h w _ _ hkm ?_
      split
      · exact markSafesAll_invfull M h w _ _ hks hs
      · exact hs
    · split
      · exact markSafesAll_invfull M h w _ _ hks hs
      · exact hs

theorem ingest_sentence_truth (M nbrs mines safes moves : Finset Cell) (count : ℤ)
    (hsafeM : ∀ c ∈ safes, c ∉ M) (hminesM : mines ⊆ M) (hmoves : moves ⊆ safes)
    (hcount : count = ((nbrs ∩ M).card : ℤ)) :
    sentTruth M ⟨nbrs \ nbrs.filter (fun x => x ∈ mines ∨ x ∈ safes ∨ x ∈ moves),
                 count - ((nbrs.filter (· ∈ mines)).card : ℤ)⟩ := by
  have hfil : nbrs.filter (· ∈ mines) = nbrs ∩ mines := Finset.filter_mem_eq_inter
  have hset : (nbrs \ nbrs.filter (fun x => x ∈ mines ∨ x ∈ safes ∨ x ∈ moves)) ∩ M
      = (nbrs ∩ M) \ (nbrs ∩ mines) := by
    ext a
    simp only [Finset.mem_inter, Finset.mem_sdiff, Finset.mem_filter, not_and]
    constructor
    · rintro ⟨⟨h1, h2⟩, h3⟩
      exact ⟨⟨h1, h3⟩, fun h1' hm => h2 h1' (Or.inl hm)⟩
    · rintro ⟨⟨h1, h3⟩, h2⟩
      refine ⟨⟨h1, fun _ hc => ?_⟩, h3⟩
      rcases hc with hm | hsf | hmv
      · exact h2 h1 hm
      · exact hsafeM a hsf h3
      · exact hsafeM a (hmoves hmv) h3
  have hsub : nbrs ∩ mines ⊆ nbrs ∩ M := Finset.inter_subset_inter subset_rfl hminesM
  rw [sentTruth]
  show (((nbrs \ _) ∩ M).card : ℤ) = _
  rw [hset, Finset.card_sdiff hsub, Nat.cast_sub (Finset.card_le_card hsub), hcount, hfil]

theorem phaseIngest_invfull (M : Finset Cell) (h w : ℕ) (s : AIState) (cell : Cell)
    (count : ℤ) (hs : InvFull M h w s) (hcell : cell ∉ M)
    (hcount : count = (((nbhd h w cell) ∩ M).card : ℤ)) :
    InvFull M h w (phaseIngest s cell count) := by
  obtain ⟨hh, hww, hsafe, hmine, hmoves, harena⟩ := hs
  subst hh
  subst hww
  have hsafe' : ∀ c ∈ insert cell s.safes, c ∉ M := by
    intro c hc
    rcases Finset.mem_insert.1 hc with rfl | hc
    · exact hcell
    · exact hsafe c hc
  simp only [phaseIngest, AIState.mark_safe]
  refine ⟨rfl, rfl, hsafe', hmine, Finset.insert_subset_insert _ hmoves, ?_⟩
  intro t ht
  rcases List.mem_append.1 ht with ht | ht
  · refine forall_mapWithIdx _ _ (fun i u hu => ?_) 0 s.arena harena t ht
    split
    · exact sentTruth_mark_safe M cell hcell u hu
    · exact hu
  · simp only [List.mem_singleton] at ht
    subst ht
    exact ingest_sentence_truth M _ s.mines (insert cell s.safes)
      (insert cell s.moves_made) count hsafe' hmine
      (Finset.insert_subset_insert _ hmoves) hcount

theorem addKnowledge_invfull (M : Finset Cell) (h w : ℕ) (s : AIState) (cell : Cell)
    (count : ℤ) (hs : InvFull M h w s) (hcell : cell ∉ M)
    (hcount : count = (((nbhd h w cell) ∩ M).card : ℤ)) :
    InvFull M h w (addKnowledge s cell count) := by
  rw [addKnowledge_eq_tail, addTail_unfold]
  have h1 := phaseIngest_invfull M h w s cell count hs hcell hcount
  have h2 := phaseNewExtract_invfull M h w _ h1
  have h3 := phaseLoopExtract_invfull M h w _ h2
  have h4 := phaseCleanup_invfull M h w _ h3
  have h5 := phaseResolve_invfull M h w _ h4
  have h6 := phaseCleanup_invfull M h w _ h5.1
  refine addExtractAux_invfull M h w _ _ h6 ?_
  intro e he
  exact h5.2 e (cleanupAux_subset _ _ _ _ e he)

theorem applyCalls_invfull (M : Finset Cell) (h w : ℕ) :
    ∀ (calls : List (Cell × ℤ)) (s : AIState), InvFull M h w s →
      (∀ p ∈ calls, consistentCall M h w p) →
      InvFull M h w (applyCalls s calls) := by
  intro calls
  induction calls with
  | nil => intro s hs _; exact hs
  | cons p rest ih =>
    intro s hs hc
    simp only [applyCalls, List.foldl_cons]
    have hp := hc p (by simp)
    have := addKnowledge_invfull M h w s p.1 p.2 hs hp.1 hp.2
    have hrest : ∀ q ∈ rest, consistentCall M h w q := fun q hq => hc q (by simp [hq])
    simpa [applyCalls] using ih (addKnowledge s p.1 p.2) this hrest

/-- C5 (amended): after any sequence of `add_knowledge` calls whose
observations are consistent with a single board `M` (each observed cell
is not a mine and each count is the number of in-bounds neighbours of
that cell that are mines), `safes` and `mines` are disjoint.  This holds
because the state then satisfies the soundness invariant: every cell in
`safes` is off the board's mine set and `mines` is contained in it. -/
theorem c5_safes_mines_disjoint_of_consistent (h w : ℕ) (M : Finset Cell)
    (calls : List (Cell × ℤ)) (hc : ∀ p ∈ calls, consistentCall M h w p) :
    (applyCalls (initAI h w) calls).safes ∩ (applyCalls (initAI h w) calls).mines = ∅ := by
  have h0 : InvFull M h w (initAI h w) := by
    refine ⟨rfl, rfl, ?_, ?_, ?_, ?_⟩ <;> simp [initAI]
  have hInv := applyCalls_invfull M h w calls (initAI h w) h0 hc
  obtain ⟨_, _, hsafe, hmine, _, _⟩ := hInv
  rw [Finset.eq_empty_iff_forall_not_mem]
  intro a ha
  obtain ⟨h1, h2⟩ := Finset.mem_inter.1 ha
  exact hsafe a h1 (hmine h2)

/-- Witness for C5: the consistent 2×3 replay (one mine at `(1,1)`). -/
theorem c5_disjoint_witness :
    (applyCalls (initAI 2 3) [((0, 0), 1), ((0, 2), 1), ((1, 2), 1)]).safes ∩
      (applyCalls (initAI 2 3) [((0, 0), 1), ((0, 2), 1), ((1, 2), 1)]).mines = ∅ :=
  c5_safes_mines_disjoint_of_consistent 2 3 {((1 : ℤ), (1 : ℤ))}
    [((0, 0), 1), ((0, 2), 1), ((1, 2), 1)] (by decide)

theorem c4_witness_ingest : phaseIngest
    (⟨2, 2, {((1 : ℤ), (1 : ℤ))}, ∅, ∅,
      [⟨{((1 : ℤ), (0 : ℤ)), ((0 : ℤ), (1 : ℤ)), ((1 : ℤ), (1 : ℤ))}, 2⟩], [0]⟩ : AIState)
    ((0 : ℤ), (0 : ℤ)) 1 =
    c4State ((1 : ℤ), (0 : ℤ)) ((0 : ℤ), (1 : ℤ)) ((1 : ℤ), (1 : ℤ)) 2 2
      {((0 : ℤ), (0 : ℤ)), ((1 : ℤ), (1 : ℤ))} {((0 : ℤ), (0 : ℤ))} := by decide

/-  `addKnowledge`, `addTail` and `phaseIngest` are fully characterised by
the equations proved above; marking them irreducible from here on keeps
definitional unfolding from expanding the whole inference pipeline inside
the statements below. -/
attribute [irreducible] addKnowledge addTail phaseIngest

/-- C4: if an `add_knowledge` call reaches its subset-resolution step with
the knowledge pool holding exactly the two distinct Constraints
`A = {x,y,z} : 2` and `B = {x,y} : 1` (with `B.cells ⊆ A.cells`) and no
known mines, then the resolution derives the Constraint `{z} : 1` and the
call's final fact extraction puts `z` into the `mines` set of the
returned state. -/
theorem c4_subset_resolution_marks_mine (x y z : Cell) (s : AIState) (cell : Cell)
    (count : ℤ) (H W : ℕ) (MM SF : Finset Cell)
    (hxy : x ≠ y) (hxz : x ≠ z) (hyz : y ≠ z)
    (h : phaseIngest s cell count = c4State x y z H W MM SF) :
    z ∈ (addKnowledge s cell count).mines := by
  rw [addKnowledge_eq_tail, h]
  have hxny : x ∉ ({y} : Finset Cell) := by simp [hxy]
  have hcardB : ({x, y} : Finset Cell).card = 2 := by
    rw [Finset.card_insert_of_not_mem hxny, Finset.card_singleton]
  have hcardA : ({x, y, z} : Finset Cell).card = 3 := by
    rw [Finset.card_insert_of_not_mem (by simp [hxy, hxz]),
      Finset.card_insert_of_not_mem (by simp [hyz]), Finset.card_singleton]
  have hsub : ({x, y} : Finset Cell) ⊆ {x, y, z} := by
    intro a ha
    simp only [Finset.mem_insert, Finset.mem_singleton] at ha ⊢
    tauto
  have hzmem : z ∈ ({x, y, z} : Finset Cell) := by simp
  have hznotB : z ∉ ({x, y} : Finset Cell) := by
    simp [Ne.symm hxz, Ne.symm hyz]
  have hnsub : ¬ ({x, y, z} : Finset Cell) ⊆ {x, y} := fun hc => hznotB (hc hzmem)
  have hdiff : ({x, y, z} : Finset Cell) \ {x, y} = {z} := by
    ext a
    simp only [Finset.mem_sdiff, Finset.mem_insert, Finset.mem_singleton]
    constructor
    · rintro ⟨h1 | h1 | h1, h2⟩ <;> tauto
    · rintro rfl
      exact ⟨Or.inr (Or.inr rfl),
        fun hc => hc.elim (fun h1 => hxz h1.symm) (fun h1 => hyz h1.symm)⟩
  have hAmines : Sentence.known_mines ⟨{x, y, z}, 2⟩ = ∅ := by
    simp [Sentence.known_mines, hcardA]
  have hAsafes : Sentence.known_safes ⟨{x, y, z}, 2⟩ = ∅ := by
    simp [Sentence.known_safes]
  have hBmines : Sentence.known_mines ⟨{x, y}, 1⟩ = ∅ := by
    simp [Sentence.known_mines, hcardB]
  have hBsafes : Sentence.known_safes ⟨{x, y}, 1⟩ = ∅ := by
    simp [Sentence.known_safes]
  have hBneqA : (⟨{x, y}, 1⟩ : Sentence) ≠ ⟨{x, y, z}, 2⟩ := by
    simp [Sentence.mk.injEq]
  have hd1 : decide ((⟨{x, y}, 1⟩ : Sentence) ≠ ⟨{x, y, z}, 2⟩ ∧
      ({x, y} : Finset Cell) ⊆ {x, y, z}) = true := decide_eq_true ⟨hBneqA, hsub⟩
  have hd2 : decide ((⟨{x, y, z}, 2⟩ : Sentence) ≠ ⟨{x, y, z}, 2⟩ ∧
      ({x, y, z} : Finset Cell) ⊆ {x, y, z}) = false :=
    decide_eq_false (fun hc => hc.1 rfl)
  have hd3 : decide ((⟨{x, y, z}, 2⟩ : Sentence) ≠ ⟨{x, y}, 1⟩ ∧
      ({x, y, z} : Finset Cell) ⊆ {x, y}) = false :=
    decide_eq_false (fun hc => hnsub hc.2)
  have hd4 : decide ((⟨{x, y}, 1⟩ : Sentence) ≠ ⟨{x, y}, 1⟩ ∧
      ({x, y} : Finset Cell) ⊆ {x, y}) = false :=
    decide_eq_false (fun hc => hc.1 rfl)
  have hderive : deriveAll [⟨{x, y, z}, 2⟩, ⟨{x, y}, 1⟩] = [⟨{z}, 1⟩] := by
    simp only [deriveAll, List.map_cons, List.map_nil, List.filter_cons, List.filter_nil,
      hd1, hd2, hd3, hd4]
    simp [hdiff]
  have hg0 : ([⟨{x, y, z}, 2⟩, ⟨{x, y}, 1⟩] : List Sentence).getD 0 ⟨∅, 0⟩ =
      ⟨{x, y, z}, 2⟩ := rfl
  have hg1 : ([⟨{x, y, z}, 2⟩, ⟨{x, y}, 1⟩] : List Sentence).getD 1 ⟨∅, 0⟩ =
      ⟨{x, y}, 1⟩ := rfl
  have hd5 : decide ((⟨{x, y, z}, 2⟩ : Sentence) = ⟨{z}, 1⟩) = false :=
    decide_eq_false (fun hc => by
      rw [Sentence.mk.injEq] at hc
      exact absurd hc.2 (by decide))
  have hd6 : decide ((⟨{x, y}, 1⟩ : Sentence) = ⟨{z}, 1⟩) = false :=
    decide_eq_false (fun hc => by
      rw [Sentence.mk.injEq] at hc
      have hcc := congrArg Finset.card hc.1
      rw [hcardB, Finset.card_singleton] at hcc
      exact absurd hcc (by decide))
  have hg0' : (c4State x y z H W MM SF).arena.getD 0 ⟨∅, 0⟩ = ⟨{x, y, z}, 2⟩ := rfl
  have hg1' : (c4State x y z H W MM SF).arena.getD 1 ⟨∅, 0⟩ = ⟨{x, y}, 1⟩ := rfl
  have hnewx : phaseNewExtract (c4State x y z H W MM SF) = c4State x y z H W MM SF := by
    refine phaseNewExtract_inert _ ?_ ?_
    · rw [show (c4State x y z H W MM SF).arena.getD
        ((c4State x y z H W MM SF).knowledge.getLastD 0) ⟨∅, 0⟩ = ⟨{x, y}, 1⟩ from rfl]
      exact hBsafes
    · rw [show (c4State x y z H W MM SF).arena.getD
        ((c4State x y z H W MM SF).knowledge.getLastD 0) ⟨∅, 0⟩ = ⟨{x, y}, 1⟩ from rfl]
      exact hBmines
  have hloopx : phaseLoopExtract (c4State x y z H W MM SF) = c4State x y z H W MM SF := by
    have e0 : phaseLoopExtract (c4State x y z H W MM SF) =
        loopExtractAux (c4State x y z H W MM SF) [0, 1] := rfl
    rw [e0,
      loopExtractAux_step_inert _ 0 _ (by rw [hg0']; exact hAsafes)
        (by rw [hg0']; exact hAmines),
      loopExtractAux_step_inert _ 1 _ (by rw [hg1']; exact hBsafes)
        (by rw [hg1']; exact hBmines)]
    rfl
  have hAne : ¬ (⟨{x, y, z}, 2⟩ : Sentence).cells = ∅ := by simp
  have hBne : ¬ (⟨{x, y}, 1⟩ : Sentence).cells = ∅ := by simp
  have hDne : ¬ (⟨{z}, 1⟩ : Sentence).cells = ∅ := by simp
  have hclean1 : phaseCleanup (c4State x y z H W MM SF) = c4State x y z H W MM SF := by
    have v0 : cleanupAux (fun i => (c4State x y z H W MM SF).arena.getD i ⟨∅, 0⟩)
        2 [0, 1] 0 =
        cleanupAux (fun i => (c4State x y z H W MM SF).arena.getD i ⟨∅, 0⟩) 1 [0, 1] 1 :=
      cleanupAux_step_keep _ 1 [0, 1] 0 (by decide) hAne
    have v1 : cleanupAux (fun i => (c4State x y z H W MM SF).arena.getD i ⟨∅, 0⟩)
        1 [0, 1] 1 = [0, 1] :=
      cleanupAux_step_keep _ 0 [0, 1] 1 (by decide) hBne
    simp only [phaseCleanup]
    rw [show (c4State x y z H W MM SF).knowledge.length = 2 from rfl,
      show (c4State x y z H W MM SF).knowledge = [0, 1] from rfl, v0, v1]
    rfl
  have hresolve : phaseResolve (c4State x y z H W MM SF) =
      (c4StateR x y z H W MM SF, [(some 2, ⟨{z}, 1⟩)]) := by
    have hmapvals : (c4State x y z H W MM SF).knowledge.map
        (fun i => (c4State x y z H W MM SF).arena.getD i ⟨∅, 0⟩) =
        [⟨{x, y, z}, 2⟩, ⟨{x, y}, 1⟩] := rfl
    have hk : (c4State x y z H W MM SF).knowledge = [0, 1] := rfl
    have hg0' : (c4State x y z H W MM SF).arena.getD 0 ⟨∅, 0⟩ = ⟨{x, y, z}, 2⟩ := rfl
    have hg1' : (c4State x y z H W MM SF).arena.getD 1 ⟨∅, 0⟩ = ⟨{x, y}, 1⟩ := rfl
    have hlen : (c4State x y z H W MM SF).arena.length = 2 := rfl
    simp only [phaseResolve, hmapvals, hderive]
    rw [List.foldl_cons, List.foldl_nil]
    simp only [appendNew, hk, List.any_cons, List.any_nil, hg0', hg1', hd5, hd6,
      Bool.or_self, Bool.or_false, Bool.false_eq_true, if_false, hlen]
    simp [c4State, c4StateR]
  have hclean2 : phaseCleanup (c4StateR x y z H W MM SF) = c4StateR x y z H W MM SF := by
    have v0 : cleanupAux (fun i => (c4StateR x y z H W MM SF).arena.getD i ⟨∅, 0⟩)
        3 [0, 1, 2] 0 =
        cleanupAux (fun i => (c4StateR x y z H W MM SF).arena.getD i ⟨∅, 0⟩) 2 [0, 1, 2] 1 :=
      cleanupAux_step_keep _ 2 [0, 1, 2] 0 (by decide) hAne
    have v1 : cleanupAux (fun i => (c4StateR x y z H W MM SF).arena.getD i ⟨∅, 0⟩)
        2 [0, 1, 2] 1 =
        cleanupAux (fun i => (c4StateR x y z H W MM SF).arena.getD i ⟨∅, 0⟩) 1 [0, 1, 2] 2 :=
      cleanupAux_step_keep _ 1 [0, 1, 2] 1 (by decide) hBne
    have v2 : cleanupAux (fun i => (c4StateR x y z H W MM SF).arena.getD i ⟨∅, 0⟩)
        1 [0, 1, 2] 2 = [0, 1, 2] :=
      cleanupAux_step_keep _ 0 [0, 1, 2] 2 (by decide) hDne
    simp only [phaseCleanup]
    rw [show (c4StateR x y z H W MM SF).knowledge.length = 3 from rfl,
      show (c4StateR x y z H W MM SF).knowledge = [0, 1, 2] from rfl, v0, v1, v2]
    rfl
  have haddclean : cleanupAux (curVal (c4StateR x y z H W MM SF).arena) 1
      [(some 2, ⟨{z}, 1⟩)] 0 = [(some 2, ⟨{z}, 1⟩)] :=
    cleanupAux_step_keep _ 0 ([(some 2, (⟨{z}, 1⟩ : Sentence))] : List AddEntry) 0
      (by simp) hDne
  have hfinal : z ∈ (addExtractAux (c4StateR x y z H W MM SF)
      [(some 2, ⟨{z}, 1⟩)]).mines := by
    have hcv : curVal ([⟨{x, y, z}, 2⟩, ⟨{x, y}, 1⟩, ⟨{z}, 1⟩] : List Sentence)
        (some 2, ⟨{z}, 1⟩) = ⟨{z}, 1⟩ := rfl
    have hDsafes : Sentence.known_safes ⟨{z}, 1⟩ = ∅ := rfl
    have hDminesKnown : Sentence.known_mines ⟨{z}, 1⟩ = {z} := rfl
    simp [addExtractAux, hcv, hDsafes, hDminesKnown, AIState.markMinesAll, c4StateR]
  rw [addTail_unfold, hnewx, hloopx, hclean1, hresolve]
  simp only [List.length_cons, List.length_nil, Nat.zero_add]
  rw [hclean2, haddclean]
  exact hfinal

/-- Witness for C4: a 2×2 AI whose pool holds `{(0,1),(1,0),(1,1)} : 2`
and where observing `(0,0) ↦ 1` (with `(1,1)` already played) creates
`{(0,1),(1,0)} : 1`, so the call marks `(1,1)` as a mine. -/
theorem c4_subset_resolution_witness :
    ((1 : ℤ), (1 : ℤ)) ∈ (addKnowledge
      (⟨2, 2, {((1 : ℤ), (1 : ℤ))}, ∅, ∅,
        [⟨{((1 : ℤ), (0 : ℤ)), ((0 : ℤ), (1 : ℤ)), ((1 : ℤ), (1 : ℤ))}, 2⟩], [0]⟩ : AIState)
      ((0 : ℤ), (0 : ℤ)) 1).mines :=
  c4_subset_resolution_marks_mine ((1 : ℤ), (0 : ℤ)) ((0 : ℤ), (1 : ℤ)) ((1 : ℤ), (1 : ℤ))
    (⟨2, 2, {((1 : ℤ), (1 : ℤ))}, ∅, ∅,
      [⟨{((1 : ℤ), (0 : ℤ)), ((0 : ℤ), (1 : ℤ)), ((1 : ℤ), (1 : ℤ))}, 2⟩], [0]⟩ : AIState)
    ((0 : ℤ), (0 : ℤ)) 1 2 2 {((0 : ℤ), (0 : ℤ)), ((1 : ℤ), (1 : ℤ))} {((0 : ℤ), (0 : ℤ))}
    (by decide) (by decide) (by decide) c4_witness_ingest
